import Mathlib

/-!
Verification development for the DXF floor-plan processing application.

The repository's visible code is the React presentation layer plus the SQL
migrations for `floor_plans` and `project_dxf_links`.  The backend pipeline
(drawing parser, keyword classifier, raster renderer, preview sessions,
floor-plan repository, link manager, export service) is specified by its
request/response contract; here it is embedded shallowly: strings model
identifiers, paths and keywords, association lists model JSON metadata
(`keyword -> ordered image list`), and the durable store is a record of
table rows with the transitions the contract describes.
-/

/-! ## String normalisation and keyword extraction -/

/-- Drop leading and trailing whitespace from a character list. -/
def trimChars (l : List Char) : List Char :=
  ((l.dropWhile (fun c => c.isWhitespace)).reverse.dropWhile (fun c => c.isWhitespace)).reverse

/-- Modelled from the spec: the classifier's uppercase-normalisation of an
observed block or layer name (case-insensitive comparison, trimming);
the classifier itself is not in the repository. -/
def normalizeKw (s : String) : String :=
  String.mk ((trimChars s.toList).map Char.toUpper)

/-- `startsWithL hay needle` : does `needle` occur at the head of `hay`? -/
def startsWithL : List Char → List Char → Bool
  | _, [] => true
  | [], _ :: _ => false
  | a :: as, b :: bs => a == b && startsWithL as bs

/-- `hasSub hay needle` : does `needle` occur contiguously inside `hay`? -/
def hasSub : List Char → List Char → Bool
  | [], needle => needle.isEmpty
  | c :: cs, needle => startsWithL (c :: cs) needle || hasSub cs needle

/-- Substring test on strings, used for blacklist-term matching. -/
def containsSub (hay needle : String) : Bool :=
  hasSub hay.toList needle.toList

/-- Modelled from the spec: reported layer keywords are the normalised layer
names with the layer-name prefix (up to the first dash) stripped, e.g.
`A-FLOOR1 ↦ FLOOR1`; a name without a dash is kept whole. -/
def stripLayerHead (s : String) : String :=
  if s.toList.contains '-' then
    String.mk ((s.toList.dropWhile (fun c => c ≠ '-')).drop 1)
  else s

/-! ## A total lexicographic order on strings, and sorted deduplication.

The classifier contract demands order-stable (lexicographically sorted)
keyword lists, so the embedding carries its own executable comparison and
insertion sort together with the facts needed about them. -/

/-- Lexicographic comparison of character lists. -/
def lexLe : List Char → List Char → Bool
  | [], _ => true
  | _ :: _, [] => false
  | a :: as, b :: bs => decide (a < b) || (a == b && lexLe as bs)

/-- Lexicographic comparison of strings. -/
def strLe (a b : String) : Bool :=
  lexLe a.toList b.toList

/-- Insert a keyword into a `strLe`-sorted list. -/
def insertKw (x : String) : List String → List String
  | [] => [x]
  | y :: ys => if strLe x y then x :: y :: ys else y :: insertKw x ys

/-- Insertion sort by `strLe`. -/
def sortKws : List String → List String
  | [] => []
  | x :: xs => insertKw x (sortKws xs)

/-- Deduplicate, then sort: the canonical form of every reported keyword list. -/
def sortDedup (l : List String) : List String :=
  sortKws l.dedup

theorem lexLe_cons_iff {x y : Char} {xs ys : List Char} :
    lexLe (x :: xs) (y :: ys) = true ↔ x < y ∨ (x = y ∧ lexLe xs ys = true) := by
  simp [lexLe, Bool.or_eq_true, Bool.and_eq_true, decide_eq_true_eq, beq_iff_eq]

theorem lexLe_total (a b : List Char) : lexLe a b = true ∨ lexLe b a = true := by
  induction a generalizing b with
  | nil => left; rfl
  | cons x xs ih =>
    cases b with
    | nil => right; rfl
    | cons y ys =>
      rcases lt_trichotomy x y with h | h | h
      · left
        exact lexLe_cons_iff.mpr (Or.inl h)
      · subst h
        rcases ih ys with h1 | h1
        · exact Or.inl (lexLe_cons_iff.mpr (Or.inr ⟨rfl, h1⟩))
        · exact Or.inr (lexLe_cons_iff.mpr (Or.inr ⟨rfl, h1⟩))
      · right
        exact lexLe_cons_iff.mpr (Or.inl h)

theorem strLe_total (a b : String) : strLe a b = true ∨ strLe b a = true :=
  lexLe_total a.toList b.toList

theorem lexLe_trans {a b c : List Char} (hab : lexLe a b = true)
    (hbc : lexLe b c = true) : lexLe a c = true := by
  induction a generalizing b c with
  | nil => rfl
  | cons x xs ih =>
    cases b with
    | nil => simp [lexLe] at hab
    | cons y ys =>
      cases c with
      | nil => simp [lexLe] at hbc
      | cons z zs =>
        rcases lexLe_cons_iff.mp hab with h1 | ⟨h1, h1t⟩ <;>
          rcases lexLe_cons_iff.mp hbc with h2 | ⟨h2, h2t⟩
        · exact lexLe_cons_iff.mpr (Or.inl (lt_trans h1 h2))
        · exact lexLe_cons_iff.mpr (Or.inl (h2 ▸ h1))
        · exact lexLe_cons_iff.mpr (Or.inl (h1 ▸ h2))
        · exact lexLe_cons_iff.mpr (Or.inr ⟨h1.trans h2, ih h1t h2t⟩)

theorem strLe_trans {a b c : String} (hab : strLe a b = true)
    (hbc : strLe b c = true) : strLe a c = true :=
  lexLe_trans hab hbc

theorem lexLe_antisymm {a b : List Char} (hab : lexLe a b = true)
    (hba : lexLe b a = true) : a = b := by
  induction a generalizing b with
  | nil =>
    cases b with
    | nil => rfl
    | cons y ys => simp [lexLe] at hba
  | cons x xs ih =>
    cases b with
    | nil => simp [lexLe] at hab
    | cons y ys =>
      rcases lexLe_cons_iff.mp hab with h1 | ⟨h1, h1t⟩ <;>
        rcases lexLe_cons_iff.mp hba with h2 | ⟨h2, h2t⟩
      · exact absurd h2 (lt_asymm h1)
      · exact absurd (h2 ▸ h1) (lt_irrefl y)
      · exact absurd (h1 ▸ h2) (lt_irrefl y)
      · rw [h1, ih h1t h2t]

theorem strLe_antisymm {a b : String} (hab : strLe a b = true)
    (hba : strLe b a = true) : a = b := by
  cases a with
  | mk da =>
    cases b with
    | mk db =>
      have : da = db := lexLe_antisymm hab hba
      rw [this]

theorem insertKw_eq_pos {x y : String} {ys : List String} (h : strLe x y = true) :
    insertKw x (y :: ys) = x :: y :: ys := by
  simp only [insertKw]
  rw [if_pos h]

theorem insertKw_eq_neg {x y : String} {ys : List String} (h : ¬ strLe x y = true) :
    insertKw x (y :: ys) = y :: insertKw x ys := by
  simp only [insertKw]
  rw [if_neg h]

theorem mem_insertKw {a x : String} {l : List String} :
    a ∈ insertKw x l ↔ a = x ∨ a ∈ l := by
  induction l with
  | nil => simp [insertKw]
  | cons y ys ih =>
    by_cases h : strLe x y = true
    · rw [insertKw_eq_pos h]
      simp [List.mem_cons]
    · rw [insertKw_eq_neg h]
      simp only [List.mem_cons, ih]
      tauto

theorem insertKw_perm (x : String) (l : List String) :
    List.Perm (insertKw x l) (x :: l) := by
  induction l with
  | nil => exact List.Perm.refl _
  | cons y ys ih =>
    by_cases h : strLe x y = true
    · rw [insertKw_eq_pos h]
    · rw [insertKw_eq_neg h]
      exact (ih.cons y).trans (List.Perm.swap x y ys)

theorem sortKws_perm (l : List String) : List.Perm (sortKws l) l := by
  induction l with
  | nil => exact List.Perm.refl _
  | cons x xs ih =>
    exact (insertKw_perm x (sortKws xs)).trans (ih.cons x)

/-- Sortedness with respect to the executable comparison. -/
def KwSorted (l : List String) : Prop :=
  List.Pairwise (fun a b => strLe a b = true) l

theorem sorted_insertKw {x : String} {l : List String} (h : KwSorted l) :
    KwSorted (insertKw x l) := by
  induction l with
  | nil =>
    simp [insertKw, KwSorted]
  | cons y ys ih =>
    rcases List.pairwise_cons.mp h with ⟨hy, hys⟩
    by_cases hxy : strLe x y = true
    · rw [insertKw_eq_pos hxy]
      refine List.pairwise_cons.mpr ⟨?_, h⟩
      intro b hb
      rcases List.mem_cons.mp hb with hb | hb
      · exact hb ▸ hxy
      · exact strLe_trans hxy (hy b hb)
    · rw [insertKw_eq_neg hxy]
      refine List.pairwise_cons.mpr ⟨?_, ih hys⟩
      intro b hb
      rcases mem_insertKw.mp hb with hb | hb
      · rw [hb]
        rcases strLe_total x y with h1 | h1
        · exact absurd h1 hxy
        · exact h1
      · exact hy b hb

theorem sorted_sortKws (l : List String) : KwSorted (sortKws l) := by
  induction l with
  | nil => exact List.Pairwise.nil
  | cons x xs ih => exact sorted_insertKw ih

theorem mem_sortKws {a : String} {l : List String} :
    a ∈ sortKws l ↔ a ∈ l :=
  (sortKws_perm l).mem_iff

theorem mem_sortDedup {a : String} {l : List String} :
    a ∈ sortDedup l ↔ a ∈ l := by
  unfold sortDedup
  rw [mem_sortKws, List.mem_dedup]

theorem nodup_sortDedup (l : List String) : (sortDedup l).Nodup :=
  ((sortKws_perm l.dedup).nodup_iff).mpr l.nodup_dedup

theorem sorted_sortDedup (l : List String) : KwSorted (sortDedup l) :=
  sorted_sortKws l.dedup

instance : IsAntisymm String (fun a b => strLe a b = true) :=
  ⟨fun _ _ => strLe_antisymm⟩

theorem sortDedup_congr_perm {l1 l2 : List String} (h : List.Perm l1 l2) :
    sortDedup l1 = sortDedup l2 :=
  List.eq_of_perm_of_sorted
    ((sortKws_perm l1.dedup).trans (h.dedup.trans (sortKws_perm l2.dedup).symm))
    (sorted_sortDedup l1) (sorted_sortDedup l2)

/-! ## Drawing documents and the keyword classifier -/

/-- A parsed CAD entity: originating block name, layer name, entity-type tag. -/
structure Entity where
  block : String
  layer : String
  etype : String
deriving DecidableEq

/-- Modelled from the spec: the in-memory model the Drawing Parser produces
(the parser itself is not in the repository): observed block names, observed
layer names, and the parsed entities. -/
structure DrawingDoc where
  blockNames : List String
  layerNames : List String
  entities : List Entity
deriving DecidableEq

/-- Modelled from the spec: a name is blacklisted when some blacklist term
occurs inside its normalised form (case-insensitive matching). -/
def isBlacklisted (bl : List String) (name : String) : Bool :=
  bl.any (fun t => containsSub (normalizeKw name) (normalizeKw t))

/-- Modelled from the spec: a layer is excluded when its normalised name
equals some excluded-layer entry (case-insensitive comparison). -/
def isExcludedName (ex : List String) (name : String) : Bool :=
  ex.any (fun t => normalizeKw t == normalizeKw name)

/-- Modelled from the spec: the optional keyword allow-list; when omitted the
keywords are derived from content, when present a name must match a seed term. -/
def allowPass : Option (List String) → String → Bool
  | none, _ => true
  | some ks, name => ks.any (fun k => containsSub (normalizeKw name) (normalizeKw k))

/-- A layer name contributes to the meaningful inventory when it is
non-blacklisted, non-excluded and passes the allow-list. -/
def layerPass (allow : Option (List String)) (bl ex : List String) (name : String) : Bool :=
  !isBlacklisted bl name && !isExcludedName ex name && allowPass allow name

/-- A block name contributes to the meaningful inventory when it is
non-blacklisted and passes the allow-list. -/
def blockPass (allow : Option (List String)) (bl : List String) (name : String) : Bool :=
  !isBlacklisted bl name && allowPass allow name

/-- Reported block keywords are the normalised block names. -/
def blockKeywordOf (s : String) : String := normalizeKw s

/-- Reported layer keywords are the normalised names with the layer-name
prefix stripped. -/
def layerKeywordOf (s : String) : String := stripLayerHead (normalizeKw s)

/-- Modelled from the spec: the meaningful layer-sourced keyword inventory
(the Keyword Classifier is not in the repository). -/
def meaningfulLayerKeywords (d : DrawingDoc) (allow : Option (List String))
    (bl ex : List String) : List String :=
  sortDedup ((d.layerNames.filter (layerPass allow bl ex)).map layerKeywordOf)

/-- Modelled from the spec: every observed layer keyword regardless of filters. -/
def allLayerKeywords (d : DrawingDoc) : List String :=
  sortDedup (d.layerNames.map layerKeywordOf)

/-- Layer keywords coming only from names the filters reject. -/
def nonMeaningfulLayerKeywords (d : DrawingDoc) (allow : Option (List String))
    (bl ex : List String) : List String :=
  sortDedup ((d.layerNames.filter (fun n => !layerPass allow bl ex n)).map layerKeywordOf)

/-- Modelled from the spec: the meaningful block-sourced keyword inventory. -/
def meaningfulBlockKeywords (d : DrawingDoc) (allow : Option (List String))
    (bl : List String) : List String :=
  sortDedup ((d.blockNames.filter (blockPass allow bl)).map blockKeywordOf)

/-- Modelled from the spec: every observed block keyword regardless of filters. -/
def allBlockKeywords (d : DrawingDoc) : List String :=
  sortDedup (d.blockNames.map blockKeywordOf)

/-- Block keywords coming only from names the filters reject. -/
def nonMeaningfulBlockKeywords (d : DrawingDoc) (allow : Option (List String))
    (bl : List String) : List String :=
  sortDedup ((d.blockNames.filter (fun n => !blockPass allow bl n)).map blockKeywordOf)

theorem split_keywords_mem (names : List String) (f : String → String)
    (p : String → Bool) (k : String) :
    (k ∈ sortDedup ((names.filter p).map f) → k ∈ sortDedup (names.map f)) ∧
    (k ∈ sortDedup (names.map f) ↔
      k ∈ sortDedup ((names.filter p).map f) ∨
      k ∈ sortDedup ((names.filter (fun n => !p n)).map f)) := by
  simp only [mem_sortDedup, List.mem_map, List.mem_filter]
  constructor
  · rintro ⟨n, ⟨hn, _⟩, rfl⟩
    exact ⟨n, hn, rfl⟩
  · constructor
    · rintro ⟨n, hn, rfl⟩
      by_cases hp : p n = true
      · exact Or.inl ⟨n, ⟨hn, hp⟩, rfl⟩
      · exact Or.inr ⟨n, ⟨hn, by simp [hp]⟩, rfl⟩
    · rintro (⟨n, ⟨hn, _⟩, rfl⟩ | ⟨n, ⟨hn, _⟩, rfl⟩) <;> exact ⟨n, hn, rfl⟩

/-- The drawing of the spec's example scenario: layers `A-FLOOR1`,
`A-FLOOR2`, `A-ANNOTATION` and nothing else. -/
def c8doc : DrawingDoc :=
  { blockNames := [], layerNames := ["A-FLOOR1", "A-FLOOR2", "A-ANNOTATION"], entities := [] }

/-- The same drawing with its layer list traversed in another order. -/
def c8docPerm : DrawingDoc :=
  { blockNames := [], layerNames := ["A-ANNOTATION", "A-FLOOR1", "A-FLOOR2"], entities := [] }

/-- C4: for every drawing document and every choice of blacklist and
excluded-layer filters, and separately for the block-derived and the
layer-derived source, the meaningful keyword set is a subset of the all
keyword set, and the union of the meaningful set with the filtered-out
(non-meaningful) keywords equals the all set. -/
theorem meaningful_subset_and_union_all (d : DrawingDoc)
    (allow : Option (List String)) (bl ex : List String) :
    ((∀ k ∈ meaningfulLayerKeywords d allow bl ex, k ∈ allLayerKeywords d) ∧
     (∀ k, k ∈ allLayerKeywords d ↔
        k ∈ meaningfulLayerKeywords d allow bl ex ∨
        k ∈ nonMeaningfulLayerKeywords d allow bl ex)) ∧
    ((∀ k ∈ meaningfulBlockKeywords d allow bl, k ∈ allBlockKeywords d) ∧
     (∀ k, k ∈ allBlockKeywords d ↔
        k ∈ meaningfulBlockKeywords d allow bl ∨
        k ∈ nonMeaningfulBlockKeywords d allow bl)) := by
  refine ⟨⟨?_, ?_⟩, ⟨?_, ?_⟩⟩
  · intro k hk
    exact (split_keywords_mem d.layerNames layerKeywordOf (layerPass allow bl ex) k).1 hk
  · intro k
    exact (split_keywords_mem d.layerNames layerKeywordOf (layerPass allow bl ex) k).2
  · intro k hk
    exact (split_keywords_mem d.blockNames blockKeywordOf (blockPass allow bl) k).1 hk
  · intro k
    exact (split_keywords_mem d.blockNames blockKeywordOf (blockPass allow bl) k).2

/-- Witness for C4 at the example drawing. -/
theorem meaningful_subset_and_union_all_witness :
    "FLOOR1" ∈ allLayerKeywords c8doc ∧
    ("ANNOTATION" ∈ meaningfulLayerKeywords c8doc none ["ANNOTATION"] [] ∨
     "ANNOTATION" ∈ nonMeaningfulLayerKeywords c8doc none ["ANNOTATION"] []) := by
  have h := meaningful_subset_and_union_all c8doc none ["ANNOTATION"] []
  exact ⟨h.1.1 "FLOOR1" (by decide), (h.1.2 "ANNOTATION").mp (by decide)⟩

/-- C5: classification is deterministic and order-stable: repeated calls on
identical inputs return identical lists, every returned list is
lexicographically sorted without duplicates, and the output does not depend
on the insertion/traversal order of the observed names. -/
theorem classification_deterministic_order_stable
    (d d2 : DrawingDoc) (allow : Option (List String)) (bl ex : List String)
    (hl : List.Perm d2.layerNames d.layerNames)
    (hb : List.Perm d2.blockNames d.blockNames) :
    (meaningfulLayerKeywords d allow bl ex = meaningfulLayerKeywords d allow bl ex ∧
     allLayerKeywords d = allLayerKeywords d ∧
     meaningfulBlockKeywords d allow bl = meaningfulBlockKeywords d allow bl ∧
     allBlockKeywords d = allBlockKeywords d) ∧
    (KwSorted (meaningfulLayerKeywords d allow bl ex) ∧
     (meaningfulLayerKeywords d allow bl ex).Nodup ∧
     KwSorted (allLayerKeywords d) ∧ (allLayerKeywords d).Nodup ∧
     KwSorted (meaningfulBlockKeywords d allow bl) ∧
     (meaningfulBlockKeywords d allow bl).Nodup ∧
     KwSorted (allBlockKeywords d) ∧ (allBlockKeywords d).Nodup) ∧
    (meaningfulLayerKeywords d2 allow bl ex = meaningfulLayerKeywords d allow bl ex ∧
     allLayerKeywords d2 = allLayerKeywords d ∧
     meaningfulBlockKeywords d2 allow bl = meaningfulBlockKeywords d allow bl ∧
     allBlockKeywords d2 = allBlockKeywords d) := by
  refine ⟨⟨rfl, rfl, rfl, rfl⟩,
    ⟨sorted_sortDedup _, nodup_sortDedup _, sorted_sortDedup _, nodup_sortDedup _,
     sorted_sortDedup _, nodup_sortDedup _, sorted_sortDedup _, nodup_sortDedup _⟩,
    ?_, ?_, ?_, ?_⟩
  · exact sortDedup_congr_perm ((hl.filter (layerPass allow bl ex)).map layerKeywordOf)
  · exact sortDedup_congr_perm (hl.map layerKeywordOf)
  · exact sortDedup_congr_perm ((hb.filter (blockPass allow bl)).map blockKeywordOf)
  · exact sortDedup_congr_perm (hb.map blockKeywordOf)

/-- Witness for C5: the example drawing with its layers listed in a
different order classifies identically. -/
theorem classification_deterministic_order_stable_witness :
    allLayerKeywords c8docPerm = allLayerKeywords c8doc := by
  obtain ⟨-, -, -, hall, -⟩ :=
    classification_deterministic_order_stable c8doc c8docPerm none [] []
      (by decide) (by decide)
  exact hall

/-- C8: ingesting a drawing whose layers are exactly `A-FLOOR1`, `A-FLOOR2`
and `A-ANNOTATION` with blacklist `["ANNOTATION"]` yields
`meaningful_layer_keywords = ["FLOOR1", "FLOOR2"]`, while
`all_layer_keywords` still contains `"ANNOTATION"`. -/
theorem layer_scenario_blacklist_annotation :
    meaningfulLayerKeywords c8doc none ["ANNOTATION"] [] = ["FLOOR1", "FLOOR2"] ∧
    "ANNOTATION" ∈ allLayerKeywords c8doc := by
  constructor
  · decide
  · decide

/-! ## Floor-plan repository, project links, export service.

`floor_plans` and `project_dxf_links` rows follow the SQL migrations; the
transitions (`commit`, `link`, `delete` with its `ON DELETE CASCADE`
behaviour, `export`) are modelled from the spec's §4.5/§4.6 contract since
the FastAPI application code is not in the repository. -/

/-- A `floor_plans` row (id, nullable keyword, nullable relative path,
JSON metadata as keyword → ordered image-path list, creation time). -/
structure FloorPlan where
  id : String
  keyword : Option String
  relative_path : Option String
  metadata : List (String × List String)
  created_at : Nat
deriving DecidableEq

/-- The durable store: the two persisted tables. -/
structure Store where
  floor_plans : List FloorPlan
  project_dxf_links : List (String × String)
deriving DecidableEq

/-- The store before any commit. -/
def Store.empty : Store := { floor_plans := [], project_dxf_links := [] }

/-- Lookup of a keyword in a metadata object (first matching key). -/
def lookupMeta : List (String × List String) → String → Option (List String)
  | [], _ => none
  | e :: rest, kw => if e.1 == kw then some e.2 else lookupMeta rest kw

/-- 0-based indexing into a keyword's ordered image list. -/
def nthImg : List String → Nat → Option String
  | [], _ => none
  | x :: _, 0 => some x
  | _ :: xs, n + 1 => nthImg xs n

/-- Row lookup by floor-plan id. -/
def findPlan (st : Store) (fid : String) : Option FloorPlan :=
  st.floor_plans.find? (fun p => p.id == fid)

/-- Modelled from the spec: the committed row's primary keyword is the first
selected keyword in sorted order. -/
def primaryKeyword (meta : List (String × List String)) : Option String :=
  (sortDedup (meta.map (fun e => e.1))).head?

/-- Modelled from the spec: `commit` persists a new FloorPlan row whose
metadata is the resolved selection. -/
def commitPlan (st : Store) (fid : String) (meta : List (String × List String)) : Store :=
  { floor_plans :=
      { id := fid, keyword := primaryKeyword meta, relative_path := none,
        metadata := meta, created_at := 0 } :: st.floor_plans,
    project_dxf_links := st.project_dxf_links }

/-- Errors of the link manager: the foreign key of `project_dxf_links`. -/
inductive LinkError
  | foreignKeyViolation
deriving DecidableEq

/-- Modelled from the spec and the SQL DDL: `link(project_id, floor_plan_id)`
inserts a row when the pair is new, succeeds silently when the pair exists
(idempotent re-link), and hits the foreign-key constraint when the floor
plan does not exist. -/
def linkOp (st : Store) (pid fid : String) : Except LinkError Store :=
  if ∃ p ∈ st.floor_plans, p.id = fid then
    if (pid, fid) ∈ st.project_dxf_links then Except.ok st
    else Except.ok { floor_plans := st.floor_plans,
                     project_dxf_links := (pid, fid) :: st.project_dxf_links }
  else Except.error LinkError.foreignKeyViolation

/-- Deleting a FloorPlan removes its row; the `ON DELETE CASCADE` constraint
of `fk_floor_plan` removes every link row carrying the deleted id. -/
def deletePlan (st : Store) (fid : String) : Store :=
  { floor_plans := st.floor_plans.filter (fun p => !(p.id == fid)),
    project_dxf_links := st.project_dxf_links.filter (fun l => !(l.2 == fid)) }

/-- Errors of the export service. -/
inductive ExportError
  | notFound
  | indexOutOfRange
deriving DecidableEq

/-- The stable externally addressable destination of an exported image. -/
def exportDest (path : String) : String := "exports/" ++ path

/-- Modelled from the spec: `export(floor_plan_id, keyword, view_index)`
looks up the FloorPlan, validates the keyword and the 0-based view index
against its metadata (`IndexOutOfRange` otherwise), and returns the
materialised destination path. -/
def exportView (st : Store) (fid kw : String) (vi : Nat) : Except ExportError String :=
  match findPlan st fid with
  | none => Except.error ExportError.notFound
  | some p =>
    match lookupMeta p.metadata kw with
    | none => Except.error ExportError.indexOutOfRange
    | some imgs =>
      match nthImg imgs vi with
      | none => Except.error ExportError.indexOutOfRange
      | some path => Except.ok (exportDest path)

/-- Did the call succeed? -/
def exOk {ε α : Type} : Except ε α → Bool
  | Except.ok _ => true
  | Except.error _ => false

/-- Store states reachable through the repository's operations. -/
inductive Reachable : Store → Prop
  | empty : Reachable Store.empty
  | commit {st : Store} (fid : String) (meta : List (String × List String)) :
      Reachable st → Reachable (commitPlan st fid meta)
  | link {st st2 : Store} (pid fid : String) :
      Reachable st → linkOp st pid fid = Except.ok st2 → Reachable st2
  | delete {st : Store} (fid : String) :
      Reachable st → Reachable (deletePlan st fid)

theorem nthImg_eq_none_iff {l : List String} {i : Nat} :
    nthImg l i = none ↔ l.length ≤ i := by
  induction l generalizing i with
  | nil => simp [nthImg]
  | cons x xs ih =>
    cases i with
    | zero => simp [nthImg]
    | succ n => simpa [nthImg, Nat.succ_le_succ_iff] using ih

theorem nthImg_some_iff {l : List String} {i : Nat} :
    (∃ x, nthImg l i = some x) ↔ i < l.length := by
  constructor
  · rintro ⟨x, hx⟩
    by_contra hlt
    rw [Nat.not_lt] at hlt
    rw [nthImg_eq_none_iff.mpr hlt] at hx
    simp at hx
  · intro hlt
    cases h : nthImg l i with
    | none =>
      rw [nthImg_eq_none_iff] at h
      omega
    | some x => exact ⟨x, rfl⟩

theorem exportView_eq_of_findPlan {st : Store} {fid : String} {p : FloorPlan}
    (hp : findPlan st fid = some p) (kw : String) (vi : Nat) :
    exportView st fid kw vi =
      (match lookupMeta p.metadata kw with
       | none => Except.error ExportError.indexOutOfRange
       | some imgs =>
         match nthImg imgs vi with
         | none => Except.error ExportError.indexOutOfRange
         | some path => Except.ok (exportDest path)) := by
  unfold exportView
  rw [hp]

theorem exportView_ok_iff (st : Store) (fid kw : String) (vi : Nat)
    (p : FloorPlan) (hp : findPlan st fid = some p) :
    exOk (exportView st fid kw vi) = true ↔
      ∃ imgs, lookupMeta p.metadata kw = some imgs ∧ vi < imgs.length := by
  rw [exportView_eq_of_findPlan hp kw vi]
  split
  next hm =>
    simp [exOk, hm]
  next imgs hm =>
    split
    next hn =>
      have hlen : imgs.length ≤ vi := nthImg_eq_none_iff.mp hn
      constructor
      · intro h
        simp [exOk] at h
      · rintro ⟨imgs2, heq, hlt⟩
        rw [hm] at heq
        injection heq with heq
        subst heq
        exact absurd (lt_of_lt_of_le hlt hlen) (lt_irrefl vi)
    next path hn =>
      constructor
      · intro _
        exact ⟨imgs, hm, nthImg_some_iff.mp ⟨path, hn⟩⟩
      · intro _
        rfl

theorem reachable_links_wf {st : Store} (h : Reachable st) :
    ∀ l ∈ st.project_dxf_links, ∃ p ∈ st.floor_plans, p.id = l.2 := by
  induction h with
  | empty =>
    intro l hl
    simp [Store.empty] at hl
  | commit fid meta hst ih =>
    intro l hl
    rcases ih l hl with ⟨p, hp, hpid⟩
    exact ⟨p, List.mem_cons_of_mem _ hp, hpid⟩
  | link pid fid hst hlink ih =>
    intro l hl
    unfold linkOp at hlink
    rename_i st st2
    by_cases hex : ∃ p ∈ st.floor_plans, p.id = fid
    · rw [if_pos hex] at hlink
      by_cases hc : (pid, fid) ∈ st.project_dxf_links
      · rw [if_pos hc] at hlink
        injection hlink with heq
        subst heq
        exact ih l hl
      · rw [if_neg hc] at hlink
        injection hlink with heq
        subst heq
        rcases List.mem_cons.mp hl with hl | hl
        · subst hl
          rcases hex with ⟨p, hp, hpid⟩
          exact ⟨p, hp, hpid⟩
        · exact ih l hl
    · rw [if_neg hex] at hlink
      simp at hlink
  | delete fid hst ih =>
    intro l hl
    rcases List.mem_filter.mp hl with ⟨hl1, hl2⟩
    rcases ih l hl1 with ⟨p, hp, hpid⟩
    refine ⟨p, List.mem_filter.mpr ⟨hp, ?_⟩, hpid⟩
    rw [hpid]
    exact hl2

theorem reachable_links_nodup {st : Store} (h : Reachable st) :
    st.project_dxf_links.Nodup := by
  induction h with
  | empty => exact List.nodup_nil
  | commit fid meta hst ih => exact ih
  | link pid fid hst hlink ih =>
    unfold linkOp at hlink
    rename_i st st2
    by_cases hex : ∃ p ∈ st.floor_plans, p.id = fid
    · rw [if_pos hex] at hlink
      by_cases hc : (pid, fid) ∈ st.project_dxf_links
      · rw [if_pos hc] at hlink
        injection hlink with heq
        subst heq
        exact ih
      · rw [if_neg hc] at hlink
        injection hlink with heq
        subst heq
        exact List.nodup_cons.mpr ⟨hc, ih⟩
    · rw [if_neg hex] at hlink
      simp at hlink
  | delete fid hst ih =>
    exact ih.filter _

/-- The resolved selection of the round-trip example: keyword `K` with
exactly two views. -/
def demoMeta : List (String × List String) := [("K", ["k0.png", "k1.png"])]

/-- The store after committing the example selection. -/
def demoStore : Store := commitPlan Store.empty "fp1" demoMeta

/-- The committed row of the example store. -/
def demoPlan : FloorPlan :=
  { id := "fp1", keyword := primaryKeyword demoMeta, relative_path := none,
    metadata := demoMeta, created_at := 0 }

/-- The example store after linking the committed plan to a project. -/
def demoStoreLinked : Store :=
  { floor_plans := demoStore.floor_plans, project_dxf_links := [("proj1", "fp1")] }

/-- C1: for a committed floor plan, `export` succeeds exactly when the
keyword is a key of the plan's metadata and the view index is a valid
0-based index into that keyword's image list; in particular with exactly two
images, indices 0 and 1 succeed and index 2 fails with `IndexOutOfRange`. -/
theorem export_succeeds_iff_valid_index (st : Store) (fid kw : String) (vi : Nat)
    (p : FloorPlan) (hp : findPlan st fid = some p) :
    (exOk (exportView st fid kw vi) = true ↔
      ∃ imgs, lookupMeta p.metadata kw = some imgs ∧ vi < imgs.length) ∧
    (∀ a b, lookupMeta p.metadata kw = some [a, b] →
      exOk (exportView st fid kw 0) = true ∧
      exOk (exportView st fid kw 1) = true ∧
      exportView st fid kw 2 = Except.error ExportError.indexOutOfRange) := by
  refine ⟨exportView_ok_iff st fid kw vi p hp, ?_⟩
  intro a b hm
  refine ⟨(exportView_ok_iff st fid kw 0 p hp).mpr ⟨[a, b], hm, by simp⟩,
          (exportView_ok_iff st fid kw 1 p hp).mpr ⟨[a, b], hm, by simp⟩, ?_⟩
  rw [exportView_eq_of_findPlan hp kw 2, hm]
  rfl

/-- Witness for C1: the committed example plan with two views for `K`. -/
theorem export_succeeds_iff_valid_index_witness :
    exOk (exportView demoStore "fp1" "K" 0) = true ∧
    exOk (exportView demoStore "fp1" "K" 1) = true ∧
    exportView demoStore "fp1" "K" 2 = Except.error ExportError.indexOutOfRange := by
  have h := export_succeeds_iff_valid_index demoStore "fp1" "K" 0 demoPlan (by decide)
  exact h.2 "k0.png" "k1.png" (by decide)

/-- C2: in every reachable store state no `project_dxf_links` row references
an absent FloorPlan, and deleting a FloorPlan removes exactly the link rows
carrying the deleted id, leaving the other rows unchanged. -/
theorem links_reference_existing_plans_cascade (st : Store) (h : Reachable st) :
    (∀ l ∈ st.project_dxf_links, ∃ p ∈ st.floor_plans, p.id = l.2) ∧
    (∀ fid l, l ∈ (deletePlan st fid).project_dxf_links ↔
      l ∈ st.project_dxf_links ∧ l.2 ≠ fid) := by
  refine ⟨reachable_links_wf h, ?_⟩
  intro fid l
  constructor
  · intro hl
    rcases List.mem_filter.mp hl with ⟨h1, h2⟩
    refine ⟨h1, ?_⟩
    simpa using h2
  · rintro ⟨h1, h2⟩
    exact List.mem_filter.mpr ⟨h1, by simpa using h2⟩

/-- Witness for C2: a store reached by commit-then-link; deleting the plan
erases its link row. -/
theorem links_reference_existing_plans_cascade_witness :
    (∃ p ∈ demoStoreLinked.floor_plans, p.id = "fp1") ∧
    ("proj1", "fp1") ∉ (deletePlan demoStoreLinked "fp1").project_dxf_links := by
  have h := links_reference_existing_plans_cascade demoStoreLinked
    (Reachable.link "proj1" "fp1"
      (Reachable.commit "fp1" demoMeta Reachable.empty) (by rfl))
  constructor
  · exact h.1 ("proj1", "fp1") (by decide)
  · intro hmem
    exact ((h.2 "fp1" ("proj1", "fp1")).mp hmem).2 rfl

/-- C3: for an existing floor plan, `link` is idempotent: the first call
succeeds, the second call with the same pair succeeds and leaves the store
unchanged, and the pair occurs exactly once (the link table stays
duplicate-free). -/
theorem link_idempotent (st : Store) (pid fid : String) (h : Reachable st)
    (hex : ∃ p ∈ st.floor_plans, p.id = fid) :
    ∃ st2, linkOp st pid fid = Except.ok st2 ∧
      linkOp st2 pid fid = Except.ok st2 ∧
      (pid, fid) ∈ st2.project_dxf_links ∧
      st2.project_dxf_links.Nodup := by
  by_cases hc : (pid, fid) ∈ st.project_dxf_links
  · refine ⟨st, ?_, ?_, hc, reachable_links_nodup h⟩
    · unfold linkOp
      rw [if_pos hex, if_pos hc]
    · unfold linkOp
      rw [if_pos hex, if_pos hc]
  · have h1 : linkOp st pid fid = Except.ok
        { floor_plans := st.floor_plans,
          project_dxf_links := (pid, fid) :: st.project_dxf_links } := by
      unfold linkOp
      rw [if_pos hex, if_neg hc]
    have hr2 := Reachable.link pid fid h h1
    refine ⟨_, h1, ?_, List.mem_cons_self _ _, reachable_links_nodup hr2⟩
    unfold linkOp
    rw [if_pos hex, if_pos (List.mem_cons_self (pid, fid) st.project_dxf_links)]

/-- Witness for C3 on the committed example store. -/
theorem link_idempotent_witness :
    ∃ st2, linkOp demoStore "proj1" "fp1" = Except.ok st2 ∧
      linkOp st2 "proj1" "fp1" = Except.ok st2 ∧
      ("proj1", "fp1") ∈ st2.project_dxf_links ∧
      st2.project_dxf_links.Nodup :=
  link_idempotent demoStore "proj1" "fp1"
    (Reachable.commit "fp1" demoMeta Reachable.empty) (by decide)

/-! ## Raster renderer and preview sessions (modelled from spec §4.3/§4.4). -/

/-- Errors of the renderer. -/
inductive RenderError
  | invalidParameter
deriving DecidableEq

/-- An entity matches a keyword when the keyword occurs in the normalised
owning block name or layer name. -/
def entityMatchesKw (kw : String) (e : Entity) : Bool :=
  containsSub (normalizeKw e.block) (normalizeKw kw) ||
  containsSub (normalizeKw e.layer) (normalizeKw kw)

/-- Modelled from the spec: step (1) of the render algorithm — collect the
entities whose owning block or layer matches the keyword, whose entity type
is in the inclusion filter, and whose layer is not excluded. -/
def collectEntities (doc : DrawingDoc) (kw : String) (types excluded : List String) :
    List Entity :=
  doc.entities.filter (fun e =>
    entityMatchesKw kw e && types.contains e.etype && !isExcludedName excluded e.layer)

/-- Modelled from the spec: step (2) — one view per distinct originating
block of the collected entities, each materialised as a uniquely named
raster file. -/
def viewsFor (doc : DrawingDoc) (kw : String) (types excluded : List String) :
    List String :=
  (sortDedup ((collectEntities doc kw types excluded).map (fun e => e.block))).map
    (fun b => kw ++ "_" ++ b ++ ".png")

/-- Modelled from the spec: `generate_preview` — `InvalidParameter` for a
non-positive DPI, otherwise the ordered image list over the selected
keywords (zero matching entities contribute zero views, not an error). -/
def generatePreview (doc : DrawingDoc) (kws : List String) (dpi : Int)
    (types excluded : List String) : Except RenderError (List String) :=
  if dpi ≤ 0 then Except.error RenderError.invalidParameter
  else Except.ok (kws.foldr (fun kw acc => viewsFor doc kw types excluded ++ acc) [])

/-- C6: rendering a preview with an empty selected-keyword set succeeds and
returns an empty image list; more generally a selected keyword matching zero
entities contributes zero views instead of failing the preview. -/
theorem empty_selection_preview_ok (doc : DrawingDoc) (dpi : Int)
    (types excluded : List String) (hdpi : 0 < dpi) :
    generatePreview doc [] dpi types excluded = Except.ok [] ∧
    (∀ kw kws, collectEntities doc kw types excluded = [] →
      viewsFor doc kw types excluded = [] ∧
      generatePreview doc (kw :: kws) dpi types excluded =
        generatePreview doc kws dpi types excluded) := by
  have hnle : ¬ dpi ≤ 0 := not_le.mpr hdpi
  constructor
  · unfold generatePreview
    rw [if_neg hnle]
    rfl
  · intro kw kws hcol
    have hv : viewsFor doc kw types excluded = [] := by
      unfold viewsFor
      rw [hcol]
      rfl
    refine ⟨hv, ?_⟩
    unfold generatePreview
    rw [if_neg hnle, if_neg hnle]
    simp [hv]

/-- A small drawing used to exercise the renderer claims. -/
def demoDoc : DrawingDoc :=
  { blockNames := ["B1"], layerNames := ["A-FLOOR1"],
    entities := [{ block := "B1", layer := "A-FLOOR1", etype := "LINE" }] }

/-- Witness for C6 on the small drawing at DPI 300. -/
theorem empty_selection_preview_ok_witness :
    generatePreview demoDoc [] 300 ["LINE"] [] = Except.ok [] ∧
    viewsFor demoDoc "ZZZ" ["LINE"] [] = [] := by
  have h := empty_selection_preview_ok demoDoc 300 ["LINE"] [] (by decide)
  exact ⟨h.1, (h.2 "ZZZ" [] (by decide)).1⟩

/-- An ephemeral preview session: identifier plus the rendered image
references grouped by keyword in render order. -/
structure PreviewSession where
  pid : String
  images : List (String × List String)
deriving DecidableEq

/-- Errors of the preview-session manager. -/
inductive SessionError
  | notFound
deriving DecidableEq

/-- All image references recorded for a session's keywords, in order. -/
def refsOf : List (String × List String) → List String
  | [] => []
  | e :: rest => e.2 ++ refsOf rest

/-- The flat reference list of a session. -/
def sessionRefs (s : PreviewSession) : List String :=
  refsOf s.images

/-- Keep only the selected references of one keyword's ordered image list;
the surviving images are densely renumbered by position, 0-based. -/
def selFilter (sel : List String) (imgs : List String) : List String :=
  imgs.filter (fun r => sel.contains r)

/-- Modelled from the spec: rebuild the keyword → ordered-image-list
structure preserving only selected entries; a keyword with no surviving
entry is dropped. -/
def restrictMeta (sel : List String) : List (String × List String) → List (String × List String)
  | [] => []
  | e :: rest =>
    if selFilter sel e.2 = [] then restrictMeta sel rest
    else (e.1, selFilter sel e.2) :: restrictMeta sel rest

/-- Modelled from the spec: `resolve_selection` — `NotFound` when any
selected reference does not belong to the session, otherwise the restricted
metadata. -/
def resolveSelection (s : PreviewSession) (sel : List String) :
    Except SessionError (List (String × List String)) :=
  if ∀ r ∈ sel, r ∈ sessionRefs s then Except.ok (restrictMeta sel s.images)
  else Except.error SessionError.notFound

theorem lookupMeta_none {m : List (String × List String)} {kw : String}
    (h : ∀ e ∈ m, e.1 ≠ kw) : lookupMeta m kw = none := by
  induction m with
  | nil => rfl
  | cons e rest ih =>
    have he : e.1 ≠ kw := h e (List.mem_cons_self _ _)
    have : (e.1 == kw) = false := beq_eq_false_iff_ne.mpr he
    simp only [lookupMeta, this, if_false]
    exact ih (fun e2 h2 => h e2 (List.mem_cons_of_mem _ h2))

theorem restrictMeta_keys {sel : List String} {m : List (String × List String)} {kw : String}
    (h : ∀ e ∈ m, e.1 ≠ kw) : ∀ e2 ∈ restrictMeta sel m, e2.1 ≠ kw := by
  induction m with
  | nil =>
    intro e2 h2
    simp [restrictMeta] at h2
  | cons e rest ih =>
    intro e2 h2
    have hrest := fun e3 h3 => h e3 (List.mem_cons_of_mem _ h3)
    by_cases hemp : selFilter sel e.2 = []
    · rw [restrictMeta, if_pos hemp] at h2
      exact ih hrest e2 h2
    · rw [restrictMeta, if_neg hemp] at h2
      rcases List.mem_cons.mp h2 with h2 | h2
      · rw [h2]
        exact h e (List.mem_cons_self _ _)
      · exact ih hrest e2 h2

theorem lookupMeta_restrict (sel : List String) (m : List (String × List String))
    (hnd : (m.map (fun e => e.1)).Nodup) (kw : String) (imgs : List String)
    (hm : lookupMeta m kw = some imgs) :
    lookupMeta (restrictMeta sel m) kw =
      (if selFilter sel imgs = [] then none else some (selFilter sel imgs)) := by
  induction m with
  | nil => simp [lookupMeta] at hm
  | cons e rest ih =>
    rw [List.map_cons, List.nodup_cons] at hnd
    obtain ⟨hnotin, hnd2⟩ := hnd
    by_cases hkw : e.1 = kw
    · have hbeq : (e.1 == kw) = true := beq_iff_eq.mpr hkw
      rw [lookupMeta, if_pos hbeq] at hm
      injection hm with hm
      subst hm
      by_cases hemp : selFilter sel e.2 = []
      · rw [restrictMeta, if_pos hemp, if_pos hemp]
        refine lookupMeta_none (restrictMeta_keys ?_)
        intro e2 h2 heq
        exact hnotin (hkw ▸ heq ▸ List.mem_map.mpr ⟨e2, h2, rfl⟩)
      · rw [restrictMeta, if_neg hemp, if_neg hemp]
        rw [lookupMeta, if_pos hbeq]
    · have hbeq : (e.1 == kw) = false := beq_eq_false_iff_ne.mpr hkw
      rw [lookupMeta, if_neg (by simp [hbeq])] at hm
      by_cases hemp : selFilter sel e.2 = []
      · rw [restrictMeta, if_pos hemp]
        exact ih hnd2 hm
      · rw [restrictMeta, if_neg hemp]
        rw [lookupMeta, if_neg (by simp [hbeq])]
        exact ih hnd2 hm

/-- C7: `resolve_selection` fails with `NotFound` when any selected
reference does not belong to the session; when all belong it returns the
restriction of the session's keyword → ordered-image-list structure to the
selected entries, each keyword's surviving images densely renumbered
(filtered in order, 0-based by position). -/
theorem resolve_selection_validates_refs (s : PreviewSession) (sel : List String) :
    ((∃ r ∈ sel, r ∉ sessionRefs s) →
      resolveSelection s sel = Except.error SessionError.notFound) ∧
    ((∀ r ∈ sel, r ∈ sessionRefs s) →
      resolveSelection s sel = Except.ok (restrictMeta sel s.images)) ∧
    ((s.images.map (fun e => e.1)).Nodup →
      ∀ kw imgs, lookupMeta s.images kw = some imgs →
        lookupMeta (restrictMeta sel s.images) kw =
          (if selFilter sel imgs = [] then none else some (selFilter sel imgs))) := by
  refine ⟨?_, ?_, ?_⟩
  · rintro ⟨r, hr, hnot⟩
    unfold resolveSelection
    rw [if_neg (fun hall => hnot (hall r hr))]
  · intro hall
    unfold resolveSelection
    rw [if_pos hall]
  · intro hnd kw imgs hm
    exact lookupMeta_restrict sel s.images hnd kw imgs hm

/-- A session with two keywords used to exercise the selection claims. -/
def demoSession : PreviewSession :=
  { pid := "pv1",
    images := [("K", ["k0.png", "k1.png", "k2.png"]), ("L", ["l0.png"])] }

/-- Witness for C7: a foreign reference is rejected, and a legal selection
restricts and densely renumbers the session metadata. -/
theorem resolve_selection_validates_refs_witness :
    resolveSelection demoSession ["zz.png"] = Except.error SessionError.notFound ∧
    resolveSelection demoSession ["k0.png", "k2.png"] =
      Except.ok (restrictMeta ["k0.png", "k2.png"] demoSession.images) ∧
    lookupMeta (restrictMeta ["k0.png", "k2.png"] demoSession.images) "K" =
      some ["k0.png", "k2.png"] := by
  have h1 := resolve_selection_validates_refs demoSession ["zz.png"]
  have h2 := resolve_selection_validates_refs demoSession ["k0.png", "k2.png"]
  refine ⟨h1.1 ⟨"zz.png", by decide, by decide⟩, h2.2.1 (by decide), ?_⟩
  have h3 := h2.2.2 (by decide) "K" ["k0.png", "k1.png", "k2.png"] (by decide)
  rw [h3]
  decide

/-! ## The floor-plan detail UI's export selection.

Embedded from `src/frontend/src/components/DXFDetail.jsx`: `toggleSelect`
adds or removes a `(floor, index)` pair (capped at two selections), and the
pairs only ever come from enumerating the fetched plan's metadata. -/

/-- `toggleSelect` of `DXFDetail.jsx`: remove the pair when present,
otherwise append it unless two images are already selected. -/
def toggleSelect (sel : List (String × Nat)) (floor : String) (idx : Nat) :
    List (String × Nat) :=
  if (floor, idx) ∈ sel then
    sel.filter (fun s => !(s.1 == floor && s.2 == idx))
  else if 2 ≤ sel.length then sel
  else sel ++ [(floor, idx)]

/-- Selections the detail page can reach: built from the empty selection by
toggling pairs enumerated from the plan's metadata (`floor` a key of
`metadata`, `idx` a position in `metadata[floor]`). -/
inductive UISelection (m : List (String × List String)) : List (String × Nat) → Prop
  | nil : UISelection m []
  | toggle {sel : List (String × Nat)} (floor : String) (idx : Nat) (imgs : List String) :
      UISelection m sel → lookupMeta m floor = some imgs → idx < imgs.length →
      UISelection m (toggleSelect sel floor idx)

theorem mem_toggleSelect {sel : List (String × Nat)} {floor : String} {idx : Nat}
    {e : String × Nat} (h : e ∈ toggleSelect sel floor idx) :
    e ∈ sel ∨ e = (floor, idx) := by
  unfold toggleSelect at h
  by_cases hmem : (floor, idx) ∈ sel
  · rw [if_pos hmem] at h
    exact Or.inl (List.mem_filter.mp h).1
  · rw [if_neg hmem] at h
    by_cases hlen : 2 ≤ sel.length
    · rw [if_pos hlen] at h
      exact Or.inl h
    · rw [if_neg hlen] at h
      rcases List.mem_append.mp h with h | h
      · exact Or.inl h
      · exact Or.inr (List.mem_singleton.mp h)

/-- C9: every `(floor, index)` pair a reachable detail-page selection holds
is enumerated from the plan's metadata, so every export request the page
issues satisfies the export precondition and can never hit the
`IndexOutOfRange` branch. -/
theorem ui_export_requests_valid (st : Store) (pid : String) (p : FloorPlan)
    (sel : List (String × Nat)) (hp : findPlan st pid = some p)
    (hs : UISelection p.metadata sel) :
    ∀ e ∈ sel, (∃ imgs, lookupMeta p.metadata e.1 = some imgs ∧ e.2 < imgs.length) ∧
      exOk (exportView st pid e.1 e.2) = true ∧
      exportView st pid e.1 e.2 ≠ Except.error ExportError.indexOutOfRange := by
  have hvalid : ∀ e ∈ sel,
      ∃ imgs, lookupMeta p.metadata e.1 = some imgs ∧ e.2 < imgs.length := by
    induction hs with
    | nil =>
      intro e he
      exact absurd he (List.not_mem_nil e)
    | toggle floor idx imgs hsel hlook hlt ih =>
      intro e he
      rcases mem_toggleSelect he with he | he
      · exact ih e he
      · rw [he]
        exact ⟨imgs, hlook, hlt⟩
  intro e he
  obtain ⟨imgs, hl, hlen⟩ := hvalid e he
  have hok : exOk (exportView st pid e.1 e.2) = true :=
    (exportView_ok_iff st pid e.1 e.2 p hp).mpr ⟨imgs, hl, hlen⟩
  refine ⟨⟨imgs, hl, hlen⟩, hok, ?_⟩
  intro heq
  rw [heq] at hok
  simp [exOk] at hok

/-- Witness for C9: selecting the second view of `K` on the committed
example plan yields an export request that succeeds. -/
theorem ui_export_requests_valid_witness :
    (∃ imgs, lookupMeta demoPlan.metadata "K" = some imgs ∧ 1 < imgs.length) ∧
    exOk (exportView demoStore "fp1" "K" 1) = true ∧
    exportView demoStore "fp1" "K" 1 ≠ Except.error ExportError.indexOutOfRange := by
  have hsel : UISelection demoPlan.metadata [("K", 1)] :=
    UISelection.toggle "K" 1 ["k0.png", "k1.png"] UISelection.nil (by decide) (by decide)
  exact ui_export_requests_valid demoStore "fp1" demoPlan [("K", 1)]
    (by decide) hsel ("K", 1) (by decide)

/-! ## The upload form's link workflow.

Embedded from `handleUpload` of `DXFUploadForm` (`src/unnamed/part_005`,
lines 96–106, and the simpler variant in `src/unnamed/part_004`): after
`process_dxf` returns `floor_plan_ids`, the ids are linked to the project
one awaited call at a time; the first failing call aborts the loop into the
catch branch, and the success path runs only after every link succeeded. -/

/-- Result of the upload workflow. -/
inductive UploadOutcome
  | success (planIds : List String)
  | failure
deriving DecidableEq

/-- Does the sequential link loop run to completion?  `ok i` models whether
the awaited `link_dxf_to_project` call for plan id `i` succeeds. -/
def attemptLinks (ok : String → Bool) : List String → Bool
  | [] => true
  | i :: ids => ok i && attemptLinks ok ids

/-- The link calls actually issued by the loop: all of them in order when
every call succeeds, otherwise the prefix up to and including the first
failing call. -/
def issuedLinks (ok : String → Bool) : List String → List String
  | [] => []
  | i :: ids => if ok i then i :: issuedLinks ok ids else [i]

/-- `handleUpload` after `process_dxf` returned `planIds`: success (and the
`onUploadSuccess` callback) only when every sequential link call succeeded,
otherwise the catch branch reports failure. -/
def handleUpload (ok : String → Bool) (planIds : List String) : UploadOutcome :=
  if attemptLinks ok planIds then UploadOutcome.success planIds
  else UploadOutcome.failure

theorem attemptLinks_eq_true_iff {ok : String → Bool} {ids : List String} :
    attemptLinks ok ids = true ↔ ∀ i ∈ ids, ok i = true := by
  induction ids with
  | nil => simp [attemptLinks]
  | cons i ids ih =>
    simp [attemptLinks, Bool.and_eq_true, ih]

theorem issuedLinks_of_all_ok {ok : String → Bool} {ids : List String}
    (h : ∀ i ∈ ids, ok i = true) : issuedLinks ok ids = ids := by
  induction ids with
  | nil => rfl
  | cons i ids ih =>
    have hi : ok i = true := h i (List.mem_cons_self _ _)
    rw [issuedLinks, if_pos hi,
      ih (fun j hj => h j (List.mem_cons_of_mem _ hj))]

/-- C10: the workflow's success callback fires exactly when every
`floor_plan_id` returned by ingestion had its awaited link call succeed; on
success the loop issued one link call per returned id, and any failing link
call makes the workflow report failure instead. -/
theorem upload_links_all_plan_ids (ok : String → Bool) (ids : List String) :
    (handleUpload ok ids = UploadOutcome.success ids ↔ ∀ i ∈ ids, ok i = true) ∧
    (handleUpload ok ids = UploadOutcome.success ids → issuedLinks ok ids = ids) ∧
    (∀ i ∈ ids, ok i = false → handleUpload ok ids = UploadOutcome.failure) := by
  have hsucc : handleUpload ok ids = UploadOutcome.success ids ↔
      ∀ i ∈ ids, ok i = true := by
    constructor
    · intro h
      by_cases ha : attemptLinks ok ids = true
      · exact attemptLinks_eq_true_iff.mp ha
      · unfold handleUpload at h
        rw [if_neg ha] at h
        exact absurd h (by simp)
    · intro h
      unfold handleUpload
      rw [if_pos (attemptLinks_eq_true_iff.mpr h)]
  refine ⟨hsucc, ?_, ?_⟩
  · intro h
    exact issuedLinks_of_all_ok (hsucc.mp h)
  · intro i hi hfalse
    have hna : ¬ attemptLinks ok ids = true := fun ha => by
      have := attemptLinks_eq_true_iff.mp ha i hi
      rw [hfalse] at this
      exact Bool.false_ne_true this
    unfold handleUpload
    rw [if_neg hna]

/-- All link calls succeed. -/
def okAll : String → Bool := fun _ => true

/-- The link call for `fp2` fails. -/
def okButFp2 : String → Bool := fun i => !(i == "fp2")

/-- Witness for C10: two returned ids, all links succeeding versus one
failing link call. -/
theorem upload_links_all_plan_ids_witness :
    handleUpload okAll ["fp1", "fp2"] = UploadOutcome.success ["fp1", "fp2"] ∧
    issuedLinks okAll ["fp1", "fp2"] = ["fp1", "fp2"] ∧
    handleUpload okButFp2 ["fp1", "fp2"] = UploadOutcome.failure := by
  have h1 := upload_links_all_plan_ids okAll ["fp1", "fp2"]
  have h2 := upload_links_all_plan_ids okButFp2 ["fp1", "fp2"]
  have hs : handleUpload okAll ["fp1", "fp2"] = UploadOutcome.success ["fp1", "fp2"] :=
    h1.1.mpr (by decide)
  exact ⟨hs, h1.2.1 hs, h2.2.2 "fp2" (by decide) (by decide)⟩
